import Mathlib

/-!
Verification development for the XBLA batch extraction tool
(source: extract.py).  Strings are modelled as `List Char`; the regular
expressions of `clean_filename` are modelled at ASCII granularity
(Python's `re` module is Unicode-aware, but every character the claims
under study mention — separators, dots, control and whitespace
characters, the replacement characters — is ASCII, and on ASCII
characters the model agrees with Python exactly).
-/

set_option autoImplicit false

/-- The path separator `os.sep` (POSIX model). -/
def sepChar : Char := '/'

/-- ASCII model of the regex class `\w`: letters, digits and underscore. -/
def pyWordChar (c : Char) : Bool :=
  decide (48 ≤ c.toNat ∧ c.toNat ≤ 57)
  || decide (65 ≤ c.toNat ∧ c.toNat ≤ 90)
  || decide (97 ≤ c.toNat ∧ c.toNat ≤ 122)
  || c == '_'

/-- ASCII model of the regex class `\s` (Python whitespace: space, tab,
newline, carriage return, vertical tab, form feed and the file/group/
record/unit separators 0x1c–0x1f). -/
def pySpace (c : Char) : Bool :=
  c == ' ' || c == '\t' || c == '\n' || c == '\r' || c == '\x0b'
  || c == '\x0c' || c == '\x1c' || c == '\x1d' || c == '\x1e' || c == '\x1f'

/-- The punctuation the sanitizer's regexes explicitly allow:
`-`, `(`, `)`, `[`, `]` and the two curly braces. -/
def bracketChar (c : Char) : Bool :=
  c == '-' || c == '(' || c == ')' || c == '[' || c == ']'
  || c == '\x7b' || c == '\x7d'

/-- Character class kept by `re.sub(r'[^\w\-\(\)\[\]\{\}\s]+', repl, _)`
(the replace-spaces branch of `clean_filename`). -/
def allowedRS (c : Char) : Bool :=
  pyWordChar c || bracketChar c || pySpace c

/-- Character class kept by `re.sub(r'[^\w \-\(\)\[\]\{\}]+', '', _)`
(the keep-spaces branch of `clean_filename`). -/
def allowedKS (c : Char) : Bool :=
  pyWordChar c || c == ' ' || bracketChar c

/-- ASCII control characters (C0 range and DEL). -/
def isControlChar (c : Char) : Bool :=
  decide (c.toNat < 32) || decide (c.toNat = 127)

/-- SUPPORTED_EXTENSIONS from extract.py. -/
def SUPPORTED_EXTENSIONS : List (List Char) :=
  [".rar".toList, ".zip".toList, ".7z".toList]

/-- The extension-stripping loop of `clean_filename`: the first supported
extension that matches `filename.lower().endswith(ext)` is cut off, then
the loop breaks. -/
def stripArchiveExt (name : List Char) : List Char :=
  match SUPPORTED_EXTENSIONS.find? (fun ext => ext.isSuffixOf (name.map Char.toLower)) with
  | some ext => name.take (name.length - ext.length)
  | none => name

/-- Model of `str.replace(" ", r)` where the replacement string `r` is a
single character (`some c`) or empty (`none`, which deletes the spaces).
These are the only replacement strings the program uses. -/
def replaceSpacesStep (r : Option Char) : List Char → List Char
  | [] => []
  | c :: cs =>
    (if c == ' ' then (match r with | some x => [x] | none => []) else [c])
      ++ replaceSpacesStep r cs

/-- Model of `re.sub('(class)+', repl, s)`: every maximal run of
characters satisfying `p` is replaced by the string `repl`.  The flag
records whether we are inside a run whose replacement has already been
emitted. -/
def subRunsAux (p : Char → Bool) (repl : List Char) : Bool → List Char → List Char
  | _, [] => []
  | inRun, c :: cs =>
    if p c then
      (if inRun then subRunsAux p repl true cs else repl ++ subRunsAux p repl true cs)
    else
      c :: subRunsAux p repl false cs

/-- Replace every maximal run of characters satisfying `p` with `repl`. -/
def subRuns (p : Char → Bool) (repl : List Char) (l : List Char) : List Char :=
  subRunsAux p repl false l

/-- Model of `str.strip` for the right end: remove the maximal trailing
run of characters belonging to `cut`. -/
def rstripChars (cut : List Char) : List Char → List Char
  | [] => []
  | c :: cs =>
    match rstripChars cut cs with
    | [] => if cut.contains c then [] else [c]
    | r => c :: r

/-- Model of Python's `str.strip(cut)`: drop the characters of `cut`
from both ends. -/
def pyStrip (cut : List Char) (l : List Char) : List Char :=
  rstripChars cut (l.dropWhile (fun c => cut.contains c))

/-- The strip set `".-_ "` of the final `filename.strip(".-_ ")`. -/
def stripSet : List Char := ['.', '-', '_', ' ']

/-- Shallow embedding of `clean_filename(filename, replace_spaces,
space_replacement)` from extract.py, with the replacement string
restricted to the single-character-or-empty values the program uses
(`" "`, `"_"`, `"-"`, `""`).  Steps, in source order: strip the archive
extension; optionally replace spaces; replace (or, in the keep-spaces
branch, delete) runs of disallowed characters, re-replacing spaces
afterwards in the replace-spaces branch; collapse runs of the
replacement character when it is non-empty; strip `".-_ "` from both
ends. -/
def clean_filename (name : List Char) (replace_spaces : Bool)
    (space_replacement : Option Char) : List Char :=
  let replList : List Char := match space_replacement with | some c => [c] | none => []
  let f0 := stripArchiveExt name
  let f1 := if replace_spaces then replaceSpacesStep space_replacement f0 else f0
  let f2 :=
    if replace_spaces then
      replaceSpacesStep space_replacement
        (subRuns (fun c => !(allowedRS c)) replList f1)
    else
      subRuns (fun c => !(allowedKS c)) [] f1
  let f3 :=
    match space_replacement with
    | some r => subRuns (fun c => c == r) [r] f2
    | none => f2
  pyStrip stripSet f3

/-- The four filename-formatting policies offered by `main` (choices
1–4). -/
inductive SpacePolicy where
  | keepSpaces
  | underscore
  | dash
  | removeSpaces
deriving DecidableEq

/-- The `replace_spaces` flag `main` sets for each policy choice. -/
def SpacePolicy.replaceSpacesFlag : SpacePolicy → Bool
  | .keepSpaces => false
  | .underscore => true
  | .dash => true
  | .removeSpaces => true

/-- The `space_replacement` string `main` sets for each policy choice
(`" "`, `"_"`, `"-"`, `""`). -/
def SpacePolicy.spaceReplacement : SpacePolicy → Option Char
  | .keepSpaces => some ' '
  | .underscore => some '_'
  | .dash => some '-'
  | .removeSpaces => none

/-- Detector for two adjacent copies of `x`, used to state the
collapse invariant. -/
def hasDouble (x : Char) : List Char → Bool
  | c :: d :: rest => (c == x && d == x) || hasDouble x (d :: rest)
  | _ => false

/-- Lift `hasDouble` over the optional replacement character. -/
def hasDoubleOpt : Option Char → List Char → Bool
  | some r, l => hasDouble r l
  | none, _ => false

/-- Check of a sanitizer output for control characters, demanded only
under the keep-spaces policy. -/
def noControlIfKeep : SpacePolicy → List Char → Bool
  | .keepSpaces, l => l.all (fun c => !(isControlChar c))
  | _, _ => true

/-- Python exceptions that the modelled fragments raise or catch. -/
inductive PyErr where
  | runtimeError
  | fileNotFound
  | osFailure
deriving DecidableEq

/-- Outcome of invoking one extraction backend on one archive, as the
`extract_archive` loop observes it: a command-line tool either completes
with an exit code or raises (timeout, missing binary, ...); the
`patoolib` library fallback either returns or raises. -/
inductive BackendStep where
  | cliExit (name : List Char) (code : Int)
  | cliRaised (name : List Char)
  | libOk
  | libRaised
deriving DecidableEq

/-- Success criterion of one backend attempt in `extract_archive`:
`result.returncode == 0` for command-line tools, returning without an
exception for `patoolib`. -/
def attemptSucceeds : BackendStep → Bool
  | .cliExit _ code => code == 0
  | .cliRaised _ => false
  | .libOk => true
  | .libRaised => false

/-- The `for extractor in extractors` loop of `extract_archive`: the
first successful attempt returns `True` at once; a failed attempt
(non-zero exit, or an exception caught by the `except` clause) falls
through to the next backend; after the loop, `False`.  The second
component counts how many backends were actually attempted. -/
def tryBackends : List BackendStep → Bool × Nat
  | [] => (false, 0)
  | s :: rest =>
    if attemptSucceeds s then (true, 1)
    else ((tryBackends rest).1, (tryBackends rest).2 + 1)

/-- Shallow embedding of `extract_archive`.  The ranked backend list
resolved by `get_archive_extractor`, together with what each backend
would do on this archive, is the `steps` argument.  An empty list makes
the function raise `RuntimeError` before trying anything; otherwise the
fallback loop runs and its boolean is returned. -/
def extract_archive (steps : List BackendStep) : Except PyErr Bool :=
  if steps.isEmpty then Except.error PyErr.runtimeError
  else Except.ok (tryBackends steps).1

/-- Number of backends `extract_archive` attempts on the given list. -/
def backendsTried (steps : List BackendStep) : Nat :=
  (tryBackends steps).2

/-- Depth of a file path in `find_innermost_file`:
`file_path[len(directory):].count(os.sep)`. -/
def pathDepth (dirLen : Nat) (fp : List Char) : Int :=
  ((fp.drop dirLen).count sepChar : Nat)

/-- Shallow embedding of `find_innermost_file(directory)`.  The
`os.walk` enumeration is supplied as `walk`: the `(root, files)` pairs
in the order the traversal yields them (the `dirs` component only
drives the traversal and is dropped).  The nested fold mirrors the two
nested `for` loops, tracking `(deepest_file, max_depth)` starting from
`(None, -1)` and replacing only on strictly greater depth. -/
def find_innermost_file (directory : List Char)
    (walk : List (List Char × List (List Char))) : Option (List Char) :=
  (walk.foldl
    (fun acc rf =>
      rf.2.foldl
        (fun acc2 file =>
          let file_path := rf.1 ++ sepChar :: file
          let depth : Int := pathDepth directory.length file_path
          if depth > acc2.2 then (some file_path, depth) else acc2)
        acc)
    ((none : Option (List Char)), (-1 : Int))).1

/-- Every file path the traversal enumerates, in enumeration order:
`os.path.join(root, file)` for each `(root, files)` pair. -/
def allFilePaths : List (List Char × List (List Char)) → List (List Char)
  | [] => []
  | rf :: rest => rf.2.map (fun n => rf.1 ++ sepChar :: n) ++ allFilePaths rest

/-- Maximum of `pathDepth` over a list of paths, starting from the
`max_depth = -1` initialisation of the source. -/
def maxDepthOf (dirLen : Nat) (fps : List (List Char)) : Int :=
  fps.foldl (fun m p => max m (pathDepth dirLen p)) (-1)

/-- One archive of the batch: the raw filename from the directory
listing, plus what the environment does at each filesystem step of
processing it. -/
structure ItemEnv where
  mkdirRes : Except PyErr Unit
  backendSteps : List BackendStep
  scratchWalk : List (List Char × List (List Char))
  moveRes : Except PyErr Unit
  rmtreeRes : Except PyErr Unit
  markerRes : Except PyErr Unit

/-- An item of the batch: raw archive filename and its environment. -/
structure ArchiveItem where
  rawName : List Char
  env : ItemEnv

/-- Normal (non-exceptional) outcomes of the body of the per-item
`try` block in `main`'s primary loop. -/
inductive BodyOutcome where
  | done
  | extractFailed
  | noInnermost
deriving DecidableEq

/-- Result of one item after the per-item `except Exception` handler. -/
inductive ItemResult where
  | ok (r : BodyOutcome)
  | caught (e : PyErr)
deriving DecidableEq

/-- Stages of the per-item pipeline, recorded in execution order. -/
inductive StageEv where
  | sanitize
  | mkdir
  | extractTry
  | locate
  | move
  | cleanup
  | marker
deriving DecidableEq

/-- The `game_name` `main` computes for an item:
`clean_filename(archive, replace_spaces, space_replacement)`. -/
def game_name_of (pol : SpacePolicy) (it : ArchiveItem) : List Char :=
  clean_filename it.rawName pol.replaceSpacesFlag pol.spaceReplacement

/-- The scratch directory `main` uses for an item:
`os.path.join(xbla_unpacked_dir, game_name + "_temp")`. -/
def game_dir_of (pol : SpacePolicy) (outDir : List Char) (it : ArchiveItem) : List Char :=
  outDir ++ sepChar :: (game_name_of pol it ++ "_temp".toList)

/-- The body of the per-item `try` block of `main`'s primary loop
(lines 241–264): `os.makedirs`; `extract_archive` (whose `RuntimeError`
on an empty backend list propagates to here); `find_innermost_file`;
`shutil.move`; `shutil.rmtree` of the scratch directory; writing the
`.xbox360` marker.  `Except.error` means an exception escaped the body;
the trace lists the stages that were started, in order. -/
def item_body (game_dir : List Char) (env : ItemEnv) :
    Except PyErr BodyOutcome × List StageEv :=
  match env.mkdirRes with
  | .error e => (.error e, [.mkdir])
  | .ok _ =>
    match extract_archive env.backendSteps with
    | .error e => (.error e, [.mkdir, .extractTry])
    | .ok false => (.ok .extractFailed, [.mkdir, .extractTry])
    | .ok true =>
      match find_innermost_file game_dir env.scratchWalk with
      | none => (.ok .noInnermost, [.mkdir, .extractTry, .locate])
      | some _ =>
        match env.moveRes with
        | .error e => (.error e, [.mkdir, .extractTry, .locate, .move])
        | .ok _ =>
          match env.rmtreeRes with
          | .error e => (.error e, [.mkdir, .extractTry, .locate, .move, .cleanup])
          | .ok _ =>
            match env.markerRes with
            | .error e =>
              (.error e, [.mkdir, .extractTry, .locate, .move, .cleanup, .marker])
            | .ok _ =>
              (.ok .done, [.mkdir, .extractTry, .locate, .move, .cleanup, .marker])

/-- One iteration of `main`'s primary per-item loop: `clean_filename`
runs before the `try` block, then the body runs under
`except Exception`, which converts any escaped exception into a printed
per-item error and lets the loop continue. -/
def process_item (pol : SpacePolicy) (outDir : List Char) (it : ArchiveItem) :
    ItemResult × List StageEv :=
  let br := item_body (game_dir_of pol outDir it) it.env
  (match br.1 with
   | Except.error e => ItemResult.caught e
   | Except.ok b => ItemResult.ok b,
   StageEv.sanitize :: br.2)

/-- The primary per-item loop of `main` (lines 234–273): process the
archives in order, one result per archive. -/
def main_loop (pol : SpacePolicy) (outDir : List Char) : List ArchiveItem → List ItemResult
  | [] => []
  | it :: rest => (process_item pol outDir it).1 :: main_loop pol outDir rest

/-- Model of `shutil.rmtree` with its default `ignore_errors=False`
(Python standard-library semantics): removing an existing directory
succeeds and leaves it absent; removing a missing one raises
`FileNotFoundError`.  The boolean is whether the directory exists. -/
def rmtree (present : Bool) : Except PyErr Bool :=
  if present then Except.ok false else Except.error PyErr.fileNotFound

/-- The guarded cleanup block of `main`'s fallback loop (lines
317–322): `shutil.rmtree(game_dir)` inside its own
`try`/`except Exception`, which prints a warning instead of
propagating.  Returns the new directory state and the caught exception,
if any. -/
def cleanup_block_fb (present : Bool) : Bool × Option PyErr :=
  match rmtree present with
  | .ok p => (p, none)
  | .error e => (present, some e)

theorem tryBackends_append_fail (pre rest : List BackendStep)
    (h : ∀ t ∈ pre, attemptSucceeds t = false) :
    tryBackends (pre ++ rest) = ((tryBackends rest).1, pre.length + (tryBackends rest).2) := by
  induction pre with
  | nil => simp
  | cons a pre ih =>
    have ha : attemptSucceeds a = false := h a (by simp)
    have ih2 := ih (fun t ht => h t (by simp [ht]))
    simp [tryBackends, ha, ih2]
    omega

theorem tryBackends_all_fail (steps : List BackendStep)
    (h : ∀ t ∈ steps, attemptSucceeds t = false) :
    tryBackends steps = (false, steps.length) := by
  have := tryBackends_append_fail steps [] h
  simpa using this

/-- C1: `extract_archive` tries the resolved backends in rank order;
the first backend that reports success (zero exit code for command-line
tools, no exception for the library fallback — `attemptSucceeds`) makes
it return success at once, having attempted exactly the failing prefix
plus that backend and nothing after it; a failing backend never makes
the call raise while the loop can continue; and when every backend
fails, `extract_archive` returns the failure value `ok false` rather
than an error. -/
theorem extract_archive_fallback_chain
    (pre post allFail : List BackendStep) (s : BackendStep)
    (hpre : ∀ t ∈ pre, attemptSucceeds t = false)
    (hs : attemptSucceeds s = true)
    (hall : ∀ t ∈ allFail, attemptSucceeds t = false)
    (hne : allFail ≠ []) :
    extract_archive (pre ++ s :: post) = Except.ok true
    ∧ backendsTried (pre ++ s :: post) = pre.length + 1
    ∧ extract_archive allFail = Except.ok false := by
  have hstep : tryBackends (s :: post) = (true, 1) := by
    simp [tryBackends, hs]
  have h1 := tryBackends_append_fail pre (s :: post) hpre
  have h2 := tryBackends_all_fail allFail hall
  refine ⟨?_, ?_, ?_⟩
  · simp [extract_archive, h1, hstep]
  · simp [backendsTried, h1, hstep]
  · simp [extract_archive, h2, hne]

/-- Witness for C1 at a concrete backend list: unrar exits 1, 7z times
out, then patoolib succeeds and the trailing backend is never tried;
and a list where the only backend fails yields `ok false`. -/
theorem extract_archive_fallback_chain_witness :
    extract_archive
        [BackendStep.cliExit "unrar".toList 1, BackendStep.cliRaised "7z".toList,
         BackendStep.libOk, BackendStep.cliExit "unzip".toList 0] = Except.ok true
    ∧ backendsTried
        [BackendStep.cliExit "unrar".toList 1, BackendStep.cliRaised "7z".toList,
         BackendStep.libOk, BackendStep.cliExit "unzip".toList 0] = 3
    ∧ extract_archive [BackendStep.libRaised] = Except.ok false := by
  have h := extract_archive_fallback_chain
    [BackendStep.cliExit "unrar".toList 1, BackendStep.cliRaised "7z".toList]
    [BackendStep.cliExit "unzip".toList 0] [BackendStep.libRaised] BackendStep.libOk
    (by decide) (by decide) (by decide) (by decide)
  simpa using h

theorem main_loop_append (pol : SpacePolicy) (outDir : List Char)
    (a b : List ArchiveItem) :
    main_loop pol outDir (a ++ b) = main_loop pol outDir a ++ main_loop pol outDir b := by
  induction a with
  | nil => rfl
  | cons it rest ih => simp [main_loop, ih]

/-- C2: per-item isolation of the batch loop.  If processing one item
raises at any stage (an `Except.error` escaping the `try`-block body),
the per-item handler converts it into that item's `caught` result and
the loop still processes everything after it; in particular a later
item that would succeed in isolation still ends in `done` (its
FinalArtifact is produced).  Every other item's result is exactly its
isolated `process_item` outcome. -/
theorem batch_isolation (pol : SpacePolicy) (outDir : List Char)
    (pre mid post : List ArchiveItem) (bad good : ArchiveItem) (e : PyErr)
    (hbad : (item_body (game_dir_of pol outDir bad) bad.env).1 = Except.error e)
    (hgood : (item_body (game_dir_of pol outDir good) good.env).1
      = Except.ok BodyOutcome.done) :
    main_loop pol outDir (pre ++ bad :: (mid ++ good :: post))
      = main_loop pol outDir pre
        ++ ItemResult.caught e
          :: (main_loop pol outDir mid
            ++ ItemResult.ok BodyOutcome.done :: main_loop pol outDir post) := by
  rw [main_loop_append]
  simp only [main_loop, process_item, hbad, hgood]
  rw [main_loop_append]
  simp [main_loop, process_item, hbad, hgood]

/-- Witness for C2: a two-item batch where the first item's move
raises is still followed by the second item, which completes. -/
theorem batch_isolation_witness :
    main_loop SpacePolicy.underscore "out".toList
      [⟨"B.zip".toList,
        ⟨Except.ok (), [BackendStep.libOk],
         [("out/B_temp".toList, ["q".toList])],
         Except.error PyErr.osFailure, Except.ok (), Except.ok ()⟩⟩,
       ⟨"A.zip".toList,
        ⟨Except.ok (), [BackendStep.libOk],
         [("out/A_temp".toList, ["p".toList])],
         Except.ok (), Except.ok (), Except.ok ()⟩⟩]
      = [ItemResult.caught PyErr.osFailure, ItemResult.ok BodyOutcome.done] := by
  have h := batch_isolation SpacePolicy.underscore "out".toList [] [] []
    ⟨"B.zip".toList,
      ⟨Except.ok (), [BackendStep.libOk],
       [("out/B_temp".toList, ["q".toList])],
       Except.error PyErr.osFailure, Except.ok (), Except.ok ()⟩⟩
    ⟨"A.zip".toList,
      ⟨Except.ok (), [BackendStep.libOk],
       [("out/A_temp".toList, ["p".toList])],
       Except.ok (), Except.ok (), Except.ok ()⟩⟩
    PyErr.osFailure (by rfl) (by rfl)
  simpa using h

/-- C4 counterexample: with no backend available, the `RuntimeError`
raised by `extract_archive` is caught by the per-item
`except Exception` handler of `main`, so it becomes an ordinary
per-item failure and the batch continues: in a two-item batch the
second item is still attempted (and fails the same way), instead of the
whole run aborting at the first item. -/
theorem no_backend_counterexample :
    main_loop SpacePolicy.underscore "out".toList
      [⟨"A.zip".toList, ⟨Except.ok (), [], [], Except.ok (), Except.ok (), Except.ok ()⟩⟩,
       ⟨"B.zip".toList, ⟨Except.ok (), [], [], Except.ok (), Except.ok (), Except.ok ()⟩⟩]
      = [ItemResult.caught PyErr.runtimeError, ItemResult.caught PyErr.runtimeError] := by
  rfl

/-- C4 amended: an empty resolved backend list makes `extract_archive`
raise `RuntimeError`, but `main` converts it into a per-item failure:
the item ends as `caught RuntimeError` and every other item of the
batch is still processed. -/
theorem no_backend_caught_per_item (pol : SpacePolicy) (outDir : List Char)
    (pre post : List ArchiveItem) (it : ArchiveItem)
    (hmk : it.env.mkdirRes = Except.ok ())
    (hnb : it.env.backendSteps = []) :
    main_loop pol outDir (pre ++ it :: post)
      = main_loop pol outDir pre
        ++ ItemResult.caught PyErr.runtimeError :: main_loop pol outDir post := by
  rw [main_loop_append]
  simp [main_loop, process_item, item_body, hmk, hnb, extract_archive]

/-- Witness for the amended C4 at a concrete one-item batch. -/
theorem no_backend_caught_per_item_witness :
    main_loop SpacePolicy.dash "out".toList
      [⟨"C.rar".toList, ⟨Except.ok (), [], [], Except.ok (), Except.ok (), Except.ok ()⟩⟩]
      = [ItemResult.caught PyErr.runtimeError] := by
  have h := no_backend_caught_per_item SpacePolicy.dash "out".toList [] []
    ⟨"C.rar".toList, ⟨Except.ok (), [], [], Except.ok (), Except.ok (), Except.ok ()⟩⟩
    (by rfl) (by rfl)
  simpa using h

/-- C6: evaluation of the code at the failing input.  The archive name
`"---.zip"` sanitizes to the empty string, yet the pipeline — which has
no emptiness guard — proceeds through extraction, location, relocation
and marker writing with the empty name (scratch directory
`out/_temp`), finishing in `done` instead of erroring out at the
sanitizing stage. -/
theorem empty_name_proceeds :
    clean_filename "---.zip".toList true (some '_') = []
    ∧ (process_item SpacePolicy.underscore "out".toList
        ⟨"---.zip".toList,
          ⟨Except.ok (), [BackendStep.libOk],
           [("out/_temp".toList, ["p".toList])],
           Except.ok (), Except.ok (), Except.ok ()⟩⟩).2
      = [StageEv.sanitize, StageEv.mkdir, StageEv.extractTry, StageEv.locate,
         StageEv.move, StageEv.cleanup, StageEv.marker]
    ∧ (process_item SpacePolicy.underscore "out".toList
        ⟨"---.zip".toList,
          ⟨Except.ok (), [BackendStep.libOk],
           [("out/_temp".toList, ["p".toList])],
           Except.ok (), Except.ok (), Except.ok ()⟩⟩).1
      = ItemResult.ok BodyOutcome.done :=
  ⟨rfl, rfl, rfl⟩

/-- C8 counterexample: on an item where every stage succeeds, the
scratch-directory cleanup is recorded strictly before the marker-file
write in the execution trace — the code calls `shutil.rmtree` at line
260 and only then opens the `.xbox360` file at line 263 — refuting the
claimed marker-before-cleanup order. -/
theorem marker_after_cleanup_counterexample :
    (process_item SpacePolicy.underscore "out".toList
        ⟨"A.zip".toList,
          ⟨Except.ok (), [BackendStep.libOk],
           [("out/A_temp".toList, ["p".toList])],
           Except.ok (), Except.ok (), Except.ok ()⟩⟩).2.indexOf StageEv.cleanup
      < (process_item SpacePolicy.underscore "out".toList
        ⟨"A.zip".toList,
          ⟨Except.ok (), [BackendStep.libOk],
           [("out/A_temp".toList, ["p".toList])],
           Except.ok (), Except.ok (), Except.ok ()⟩⟩).2.indexOf StageEv.marker
    ∧ StageEv.marker ∈ (process_item SpacePolicy.underscore "out".toList
        ⟨"A.zip".toList,
          ⟨Except.ok (), [BackendStep.libOk],
           [("out/A_temp".toList, ["p".toList])],
           Except.ok (), Except.ok (), Except.ok ()⟩⟩).2 := by
  decide

/-- C8 amended: for every item whose relocation succeeds, the pipeline
performs the scratch-directory cleanup first and the marker-file write
after it; a marker-write failure is caught by the per-item handler (the
item is reported as an error, the already-moved artifact and the
cleanup are not undone). -/
theorem cleanup_precedes_marker (pol : SpacePolicy) (outDir : List Char)
    (it : ArchiveItem) (e : PyErr)
    (hmk : it.env.mkdirRes = Except.ok ())
    (hex : extract_archive it.env.backendSteps = Except.ok true)
    (hloc : (find_innermost_file (game_dir_of pol outDir it) it.env.scratchWalk).isSome = true)
    (hmv : it.env.moveRes = Except.ok ())
    (hrm : it.env.rmtreeRes = Except.ok ())
    (hmkr : it.env.markerRes = Except.error e) :
    (process_item pol outDir it).2
      = [StageEv.sanitize, StageEv.mkdir, StageEv.extractTry, StageEv.locate,
         StageEv.move, StageEv.cleanup, StageEv.marker]
    ∧ (process_item pol outDir it).2.indexOf StageEv.cleanup
      < (process_item pol outDir it).2.indexOf StageEv.marker
    ∧ (process_item pol outDir it).1 = ItemResult.caught e := by
  obtain ⟨p, hp⟩ := Option.isSome_iff_exists.mp hloc
  have htr : (process_item pol outDir it).2
      = [StageEv.sanitize, StageEv.mkdir, StageEv.extractTry, StageEv.locate,
         StageEv.move, StageEv.cleanup, StageEv.marker] := by
    simp [process_item, item_body, hmk, hex, hp, hmv, hrm, hmkr]
  refine ⟨htr, ?_, ?_⟩
  · rw [htr]; decide
  · simp [process_item, item_body, hmk, hex, hp, hmv, hrm, hmkr]

/-- Witness for the amended C8 at a concrete item whose marker write
fails. -/
theorem cleanup_precedes_marker_witness :
    (process_item SpacePolicy.underscore "out".toList
        ⟨"A.zip".toList,
          ⟨Except.ok (), [BackendStep.libOk],
           [("out/A_temp".toList, ["p".toList])],
           Except.ok (), Except.ok (), Except.error PyErr.osFailure⟩⟩).2
      = [StageEv.sanitize, StageEv.mkdir, StageEv.extractTry, StageEv.locate,
         StageEv.move, StageEv.cleanup, StageEv.marker]
    ∧ (process_item SpacePolicy.underscore "out".toList
        ⟨"A.zip".toList,
          ⟨Except.ok (), [BackendStep.libOk],
           [("out/A_temp".toList, ["p".toList])],
           Except.ok (), Except.ok (), Except.error PyErr.osFailure⟩⟩).2.indexOf StageEv.cleanup
      < (process_item SpacePolicy.underscore "out".toList
        ⟨"A.zip".toList,
          ⟨Except.ok (), [BackendStep.libOk],
           [("out/A_temp".toList, ["p".toList])],
           Except.ok (), Except.ok (), Except.error PyErr.osFailure⟩⟩).2.indexOf StageEv.marker
    ∧ (process_item SpacePolicy.underscore "out".toList
        ⟨"A.zip".toList,
          ⟨Except.ok (), [BackendStep.libOk],
           [("out/A_temp".toList, ["p".toList])],
           Except.ok (), Except.ok (), Except.error PyErr.osFailure⟩⟩).1
      = ItemResult.caught PyErr.osFailure :=
  cleanup_precedes_marker SpacePolicy.underscore "out".toList
    ⟨"A.zip".toList,
      ⟨Except.ok (), [BackendStep.libOk],
       [("out/A_temp".toList, ["p".toList])],
       Except.ok (), Except.ok (), Except.error PyErr.osFailure⟩⟩
    PyErr.osFailure rfl rfl rfl rfl rfl rfl

/-- C9 counterexample: the cleanup operation is a plain
`shutil.rmtree(game_dir)` (default `ignore_errors=False`); the first
run on an existing scratch directory removes it, and a second run on
the now-removed directory raises `FileNotFoundError` — so cleanup is
not idempotent at the level of the rmtree call itself. -/
theorem rmtree_second_run_counterexample :
    rmtree true = Except.ok false
    ∧ rmtree false = Except.error PyErr.fileNotFound :=
  ⟨rfl, rfl⟩

/-- C9 amended: running cleanup a second time on an already-removed
scratch directory raises `FileNotFoundError` from `shutil.rmtree`, but
the pipeline never crashes: the fallback path's dedicated handler
catches it (the guarded block returns normally with the caught error),
and in the primary path the per-item handler catches it, the item ends
as `caught FileNotFoundError`, and the rest of the batch continues. -/
theorem second_cleanup_caught (present : Bool) (pol : SpacePolicy)
    (outDir : List Char) (pre post : List ArchiveItem) (it : ArchiveItem)
    (hmk : it.env.mkdirRes = Except.ok ())
    (hex : extract_archive it.env.backendSteps = Except.ok true)
    (hloc : (find_innermost_file (game_dir_of pol outDir it) it.env.scratchWalk).isSome = true)
    (hmv : it.env.moveRes = Except.ok ())
    (hrm : it.env.rmtreeRes = Except.error PyErr.fileNotFound) :
    cleanup_block_fb (cleanup_block_fb present).1 = (false, some PyErr.fileNotFound)
    ∧ main_loop pol outDir (pre ++ it :: post)
      = main_loop pol outDir pre
        ++ ItemResult.caught PyErr.fileNotFound :: main_loop pol outDir post := by
  obtain ⟨p, hp⟩ := Option.isSome_iff_exists.mp hloc
  constructor
  · cases present <;> rfl
  · rw [main_loop_append]
    simp [main_loop, process_item, item_body, hmk, hex, hp, hmv, hrm]

/-- Witness for the amended C9 at a concrete item whose cleanup
raises `FileNotFoundError`. -/
theorem second_cleanup_caught_witness :
    cleanup_block_fb (cleanup_block_fb true).1 = (false, some PyErr.fileNotFound)
    ∧ main_loop SpacePolicy.underscore "out".toList
        [⟨"A.zip".toList,
          ⟨Except.ok (), [BackendStep.libOk],
           [("out/A_temp".toList, ["p".toList])],
           Except.ok (), Except.error PyErr.fileNotFound, Except.ok ()⟩⟩]
      = [ItemResult.caught PyErr.fileNotFound] := by
  have h := second_cleanup_caught true SpacePolicy.underscore "out".toList [] []
    ⟨"A.zip".toList,
      ⟨Except.ok (), [BackendStep.libOk],
       [("out/A_temp".toList, ["p".toList])],
       Except.ok (), Except.error PyErr.fileNotFound, Except.ok ()⟩⟩
    rfl rfl (by rfl) rfl rfl
  simpa using h

/-- One step of the `deepest_file` / `max_depth` accumulator of
`find_innermost_file`: replace only on strictly greater key. -/
def stepMax {α : Type} (f : α → Int) (acc : Option α × Int) (a : α) : Option α × Int :=
  if f a > acc.2 then (some a, f a) else acc

/-- Tail-recursive form of the strict-improvement scan: starting from
candidate `c`, a later element replaces the candidate only when its key
is strictly greater, so the first element attaining the maximum wins. -/
def pickMax {α : Type} (f : α → Int) : α → List α → α
  | c, [] => c
  | c, a :: l => if f a > f c then pickMax f a l else pickMax f c l

/-- Maximum of the keys of `l`, folded from initial value `i`. -/
def maxFrom {α : Type} (f : α → Int) (i : Int) (l : List α) : Int :=
  l.foldl (fun m a => max m (f a)) i

theorem foldl_stepMax_some {α : Type} (f : α → Int) (l : List α) : ∀ c : α,
    l.foldl (stepMax f) (some c, f c) = (some (pickMax f c l), f (pickMax f c l)) := by
  induction l with
  | nil => intro c; rfl
  | cons a l ih =>
    intro c
    by_cases h : f a > f c
    · simp only [List.foldl, stepMax, h, if_pos, pickMax, if_true]
      exact ih a
    · simp only [List.foldl, stepMax, pickMax, if_neg h]
      exact ih c

theorem maxFrom_max {α : Type} (f : α → Int) (l : List α) : ∀ u v : Int,
    maxFrom f (max u v) l = max u (maxFrom f v l) := by
  induction l with
  | nil => intro u v; rfl
  | cons a l ih =>
    intro u v
    show maxFrom f (max (max u v) (f a)) l = max u (maxFrom f (max v (f a)) l)
    rw [max_assoc, ih]

theorem le_maxFrom {α : Type} (f : α → Int) (l : List α) : ∀ i : Int, i ≤ maxFrom f i l := by
  induction l with
  | nil => intro i; exact le_refl i
  | cons a l ih =>
    intro i
    calc i ≤ max i (f a) := le_max_left _ _
    _ ≤ maxFrom f (max i (f a)) l := ih _

theorem find?_cons_true {α : Type} (p : α → Bool) (a : α) (l : List α)
    (h : p a = true) : (a :: l).find? p = some a := by
  simp [List.find?, h]

theorem find?_cons_false {α : Type} (p : α → Bool) (a : α) (l : List α)
    (h : p a = false) : (a :: l).find? p = l.find? p := by
  simp [List.find?, h]

theorem find?_maxFrom_pickMax {α : Type} (f : α → Int) (l : List α) : ∀ c : α,
    (c :: l).find? (fun a => f a == maxFrom f (f c) l) = some (pickMax f c l) := by
  induction l with
  | nil =>
    intro c
    exact find?_cons_true (fun a => f a == maxFrom f (f c) []) c [] (by simp [maxFrom])
  | cons a l ih =>
    intro c
    have hstep : maxFrom f (f c) (a :: l) = maxFrom f (max (f c) (f a)) l := rfl
    by_cases h : f a > f c
    · have hmax : max (f c) (f a) = f a := max_eq_right (le_of_lt h)
      have hM : maxFrom f (f c) (a :: l) = maxFrom f (f a) l := by rw [hstep, hmax]
      have hlt : f c < maxFrom f (f a) l := lt_of_lt_of_le h (le_maxFrom f l (f a))
      have hpick : pickMax f c (a :: l) = pickMax f a l := by simp [pickMax, h]
      rw [hM, hpick]
      have hpredc : (f c == maxFrom f (f a) l) = false := by
        simp only [beq_eq_false_iff_ne, ne_eq]
        exact ne_of_lt hlt
      calc (c :: a :: l).find? (fun x => f x == maxFrom f (f a) l)
          = (a :: l).find? (fun x => f x == maxFrom f (f a) l) :=
            find?_cons_false (fun x => f x == maxFrom f (f a) l) c (a :: l) hpredc
        _ = some (pickMax f a l) := ih a
    · have hle : f a ≤ f c := le_of_not_lt h
      have hmax : max (f c) (f a) = f c := max_eq_left hle
      have hM : maxFrom f (f c) (a :: l) = maxFrom f (f c) l := by rw [hstep, hmax]
      have hpick : pickMax f c (a :: l) = pickMax f c l := by simp [pickMax, h]
      rw [hM, hpick]
      by_cases hc : f c = maxFrom f (f c) l
      · have hpredc : (f c == maxFrom f (f c) l) = true := by
          simp only [beq_iff_eq]
          exact hc
        have h2 := ih c
        rw [find?_cons_true (fun x => f x == maxFrom f (f c) l) c l hpredc] at h2
        have hpc : some c = some (pickMax f c l) := h2
        calc (c :: a :: l).find? (fun x => f x == maxFrom f (f c) l)
            = some c :=
              find?_cons_true (fun x => f x == maxFrom f (f c) l) c (a :: l) hpredc
          _ = some (pickMax f c l) := hpc
      · have hclt : f c < maxFrom f (f c) l :=
          lt_of_le_of_ne (le_maxFrom f l (f c)) hc
        have hpredc : (f c == maxFrom f (f c) l) = false := by
          simp only [beq_eq_false_iff_ne, ne_eq]
          exact hc
        have hpreda : (f a == maxFrom f (f c) l) = false := by
          simp only [beq_eq_false_iff_ne, ne_eq]
          exact ne_of_lt (lt_of_le_of_lt hle hclt)
        have h2 := ih c
        rw [find?_cons_false (fun x => f x == maxFrom f (f c) l) c l hpredc] at h2
        calc (c :: a :: l).find? (fun x => f x == maxFrom f (f c) l)
            = (a :: l).find? (fun x => f x == maxFrom f (f c) l) :=
              find?_cons_false (fun x => f x == maxFrom f (f c) l) c (a :: l) hpredc
          _ = l.find? (fun x => f x == maxFrom f (f c) l) :=
              find?_cons_false (fun x => f x == maxFrom f (f c) l) a l hpreda
          _ = some (pickMax f c l) := h2

theorem pathDepth_nonneg (dirLen : Nat) (fp : List Char) : 0 ≤ pathDepth dirLen fp :=
  Int.natCast_nonneg _

theorem nested_foldl_stepMax (f : List Char → Int)
    (walk : List (List Char × List (List Char))) : ∀ acc : Option (List Char) × Int,
    walk.foldl
      (fun acc rf =>
        rf.2.foldl (fun acc2 file => stepMax f acc2 (rf.1 ++ sepChar :: file)) acc) acc
      = (allFilePaths walk).foldl (stepMax f) acc := by
  induction walk with
  | nil => intro acc; rfl
  | cons rf rest ih =>
    intro acc
    have hsplit : (allFilePaths (rf :: rest)).foldl (stepMax f) acc
        = (allFilePaths rest).foldl (stepMax f)
            ((rf.2.map (fun n => rf.1 ++ sepChar :: n)).foldl (stepMax f) acc) := by
      rw [show allFilePaths (rf :: rest)
            = rf.2.map (fun n => rf.1 ++ sepChar :: n) ++ allFilePaths rest from rfl,
          List.foldl_append]
    rw [hsplit, List.foldl_map]
    exact ih _

theorem find_innermost_eq (directory : List Char)
    (walk : List (List Char × List (List Char))) :
    find_innermost_file directory walk
      = ((allFilePaths walk).foldl (stepMax (pathDepth directory.length))
          ((none : Option (List Char)), (-1 : Int))).1 :=
  congrArg Prod.fst (nested_foldl_stepMax (pathDepth directory.length) walk _)

theorem find_innermost_eq_find? (directory : List Char)
    (walk : List (List Char × List (List Char))) :
    find_innermost_file directory walk
      = (allFilePaths walk).find?
          (fun p => pathDepth directory.length p
            == maxDepthOf directory.length (allFilePaths walk)) := by
  rw [find_innermost_eq]
  cases hE : allFilePaths walk with
  | nil => rfl
  | cons a l =>
    have hgt : pathDepth directory.length a > (-1 : Int) :=
      lt_of_lt_of_le (by norm_num) (pathDepth_nonneg directory.length a)
    have h0 : (a :: l).foldl (stepMax (pathDepth directory.length))
          ((none : Option (List Char)), (-1 : Int))
        = l.foldl (stepMax (pathDepth directory.length))
            (some a, pathDepth directory.length a) := by
      have hstep1 : stepMax (pathDepth directory.length)
          ((none : Option (List Char)), (-1 : Int)) a
          = (some a, pathDepth directory.length a) := by
        simp [stepMax, hgt]
      rw [show (a :: l).foldl (stepMax (pathDepth directory.length))
            ((none : Option (List Char)), (-1 : Int))
          = l.foldl (stepMax (pathDepth directory.length))
              (stepMax (pathDepth directory.length)
                ((none : Option (List Char)), (-1 : Int)) a) from rfl, hstep1]
    have hM : maxDepthOf directory.length (a :: l)
        = maxFrom (pathDepth directory.length) (pathDepth directory.length a) l := by
      show maxFrom (pathDepth directory.length)
          (max (-1) (pathDepth directory.length a)) l = _
      rw [max_eq_right (le_of_lt hgt)]
    rw [h0, foldl_stepMax_some, hM]
    exact (find?_maxFrom_pickMax (pathDepth directory.length) l a).symm

theorem find_innermost_none_iff (directory : List Char)
    (walk : List (List Char × List (List Char))) :
    (find_innermost_file directory walk).isNone = (allFilePaths walk).isEmpty := by
  rw [find_innermost_eq]
  cases hE : allFilePaths walk with
  | nil => rfl
  | cons a l =>
    have hgt : pathDepth directory.length a > (-1 : Int) :=
      lt_of_lt_of_le (by norm_num) (pathDepth_nonneg directory.length a)
    have hstep1 : stepMax (pathDepth directory.length)
        ((none : Option (List Char)), (-1 : Int)) a
        = (some a, pathDepth directory.length a) := by
      simp [stepMax, hgt]
    rw [show (a :: l).foldl (stepMax (pathDepth directory.length))
          ((none : Option (List Char)), (-1 : Int))
        = l.foldl (stepMax (pathDepth directory.length))
            (stepMax (pathDepth directory.length)
              ((none : Option (List Char)), (-1 : Int)) a) from rfl, hstep1,
        foldl_stepMax_some]
    rfl

/-- C3: `find_innermost_file` returns exactly the first enumerated file
path whose depth (count of path separators past the directory prefix)
attains the maximum over every file of the traversal — strictly deeper
files replace the candidate, equal depth keeps the earlier one — and it
returns `none` exactly when the traversal enumerates no file at all. -/
theorem find_innermost_file_spec (directory : List Char)
    (walk : List (List Char × List (List Char))) :
    find_innermost_file directory walk
      = (allFilePaths walk).find?
          (fun p => pathDepth directory.length p
            == maxDepthOf directory.length (allFilePaths walk))
    ∧ (find_innermost_file directory walk).isNone = (allFilePaths walk).isEmpty :=
  ⟨find_innermost_eq_find? directory walk, find_innermost_none_iff directory walk⟩

theorem mem_allFilePaths {p : List Char} :
    ∀ walk : List (List Char × List (List Char)), p ∈ allFilePaths walk →
    ∃ rf, rf ∈ walk ∧ ∃ n, n ∈ rf.2 ∧ p = rf.1 ++ sepChar :: n := by
  intro walk
  induction walk with
  | nil => intro h; simp [allFilePaths] at h
  | cons rf rest ih =>
    intro h
    simp only [allFilePaths, List.mem_append, List.mem_map] at h
    rcases h with ⟨n, hn, hp⟩ | h
    · exact ⟨rf, by simp, n, hn, hp.symm⟩
    · obtain ⟨rf2, hrf2, n, hn, hp⟩ := ih h
      exact ⟨rf2, by simp [hrf2], n, hn, hp⟩

/-- C10: whenever `find_innermost_file` returns a path, that path is
one of the file paths the traversal enumerated, and it lies strictly
inside the searched directory: the directory is a proper prefix of the
returned path. -/
theorem find_innermost_within_root (directory : List Char)
    (walk : List (List Char × List (List Char))) (p : List Char)
    (hroots : ∀ rf ∈ walk,
      rf.1 = directory ∨ (directory ++ [sepChar]).isPrefixOf rf.1 = true)
    (hfind : find_innermost_file directory walk = some p) :
    directory.isPrefixOf p = true ∧ p ≠ directory ∧ p ∈ allFilePaths walk := by
  rw [find_innermost_eq_find? directory walk] at hfind
  have hmem : p ∈ allFilePaths walk := List.mem_of_find?_eq_some hfind
  obtain ⟨rf, hrf, n, hn, hp⟩ := mem_allFilePaths walk hmem
  rcases hroots rf hrf with hroot | hroot
  · subst hroot
    refine ⟨?_, ?_, hmem⟩
    · rw [List.isPrefixOf_iff_prefix, hp]
      exact ⟨sepChar :: n, rfl⟩
    · intro hpd
      rw [hp] at hpd
      have := congrArg List.length hpd
      simp [List.length_append] at this
  · rw [List.isPrefixOf_iff_prefix] at hroot
    obtain ⟨t, ht⟩ := hroot
    refine ⟨?_, ?_, hmem⟩
    · rw [List.isPrefixOf_iff_prefix, hp, ← ht]
      exact ⟨sepChar :: (t ++ sepChar :: n), by simp⟩
    · intro hpd
      have := congrArg List.length hpd
      rw [hp, ← ht] at this
      simp [List.length_append] at this

/-- Witness for C10 at a concrete two-level traversal: the deepest file
`root/d/b` is returned, is inside `root`, and differs from `root`. -/
theorem find_innermost_within_root_witness :
    ("root".toList).isPrefixOf "root/d/b".toList = true
    ∧ "root/d/b".toList ≠ "root".toList
    ∧ "root/d/b".toList ∈ allFilePaths
        [("root".toList, ["a".toList]), ("root/d".toList, ["b".toList])] := by
  have h := find_innermost_within_root "root".toList
    [("root".toList, ["a".toList]), ("root/d".toList, ["b".toList])]
    "root/d/b".toList (by decide) (by decide)
  exact h

theorem mem_subRunsAux (p : Char → Bool) (repl : List Char) :
    ∀ (b : Bool) (l : List Char) (c : Char), c ∈ subRunsAux p repl b l →
      c ∈ repl ∨ (c ∈ l ∧ p c = false) := by
  intro b l
  induction l generalizing b with
  | nil => intro c h; simp [subRunsAux] at h
  | cons d cs ih =>
    intro c h
    cases hp : p d with
    | true =>
      cases b with
      | true =>
        simp only [subRunsAux, hp, if_true] at h
        rcases ih true c h with h1 | ⟨h2, h3⟩
        · exact Or.inl h1
        · exact Or.inr ⟨List.mem_cons_of_mem d h2, h3⟩
      | false =>
        simp only [subRunsAux, hp, if_true] at h
        rcases List.mem_append.mp h with h1 | h1
        · exact Or.inl h1
        · rcases ih true c h1 with h2 | ⟨h2, h3⟩
          · exact Or.inl h2
          · exact Or.inr ⟨List.mem_cons_of_mem d h2, h3⟩
    | false =>
      simp only [subRunsAux, hp, Bool.false_eq_true, if_false] at h
      rcases List.mem_cons.mp h with h1 | h1
      · subst h1
        exact Or.inr ⟨List.mem_cons_self _ _, hp⟩
      · rcases ih false c h1 with h2 | ⟨h2, h3⟩
        · exact Or.inl h2
        · exact Or.inr ⟨List.mem_cons_of_mem d h2, h3⟩

theorem mem_replaceSpacesStep (r : Option Char) :
    ∀ (l : List Char) (c : Char), c ∈ replaceSpacesStep r l →
      (∃ x, r = some x ∧ c = x) ∨ (c ∈ l ∧ (c == ' ') = false) := by
  intro l
  induction l with
  | nil => intro c h; simp [replaceSpacesStep] at h
  | cons d cs ih =>
    intro c h
    simp only [replaceSpacesStep] at h
    rcases List.mem_append.mp h with h1 | h1
    · cases hd : d == ' ' with
      | true =>
        rw [hd] at h1
        simp only [if_true] at h1
        cases r with
        | some x =>
          simp only [List.mem_singleton] at h1
          exact Or.inl ⟨x, rfl, h1⟩
        | none => simp at h1
      | false =>
        rw [hd] at h1
        simp only [Bool.false_eq_true, if_false, List.mem_singleton] at h1
        subst h1
        exact Or.inr ⟨List.mem_cons_self _ _, hd⟩
    · rcases ih c h1 with h2 | ⟨h2, h3⟩
      · exact Or.inl h2
      · exact Or.inr ⟨List.mem_cons_of_mem d h2, h3⟩

theorem rstripChars_pref (cut : List Char) : ∀ l : List Char,
    ∃ t, rstripChars cut l ++ t = l := by
  intro l
  induction l with
  | nil => exact ⟨[], rfl⟩
  | cons d ds ih =>
    obtain ⟨t, ht⟩ := ih
    cases hr : rstripChars cut ds with
    | nil =>
      by_cases hc : d ∈ cut
      · exact ⟨d :: ds, by simp [rstripChars, hr, hc]⟩
      · exact ⟨ds, by simp [rstripChars, hr, hc]⟩
    | cons c cs =>
      rw [hr] at ht
      exact ⟨t, by simp only [rstripChars, hr]; simpa using ht⟩

theorem mem_rstripChars (cut : List Char) (c : Char) (l : List Char)
    (h : c ∈ rstripChars cut l) : c ∈ l := by
  obtain ⟨t, ht⟩ := rstripChars_pref cut l
  rw [← ht]
  exact List.mem_append_left t h

theorem mem_pyStrip (cut : List Char) (c : Char) (l : List Char)
    (h : c ∈ pyStrip cut l) : c ∈ l :=
  (List.dropWhile_sublist _).subset (mem_rstripChars cut c _ h)

theorem clean_filename_class_rs (repl : Option Char) (name : List Char) (c : Char)
    (h : c ∈ clean_filename name true repl) :
    (∃ r, repl = some r ∧ c = r) ∨ allowedRS c = true := by
  cases repl with
  | none =>
    have h3 : c ∈ replaceSpacesStep none
        (subRuns (fun x => !(allowedRS x)) []
          (replaceSpacesStep none (stripArchiveExt name))) :=
      mem_pyStrip stripSet c _ h
    rcases mem_replaceSpacesStep none _ c h3 with ⟨x, hx, _⟩ | ⟨h4, _⟩
    · exact absurd hx (by simp)
    · rcases mem_subRunsAux _ [] false _ c h4 with h5 | ⟨_, h6⟩
      · simp at h5
      · right
        simpa using h6
  | some r =>
    have h3 : c ∈ subRuns (fun x => x == r) [r]
        (replaceSpacesStep (some r)
          (subRuns (fun x => !(allowedRS x)) [r]
            (replaceSpacesStep (some r) (stripArchiveExt name)))) :=
      mem_pyStrip stripSet c _ h
    rcases mem_subRunsAux _ [r] false _ c h3 with h4 | ⟨h4, _⟩
    · exact Or.inl ⟨r, rfl, by simpa using h4⟩
    · rcases mem_replaceSpacesStep (some r) _ c h4 with ⟨x, hx, hcx⟩ | ⟨h5, _⟩
      · exact Or.inl ⟨r, rfl, hcx.trans (Option.some.inj hx).symm⟩
      · rcases mem_subRunsAux _ [r] false _ c h5 with h6 | ⟨_, h7⟩
        · exact Or.inl ⟨r, rfl, by simpa using h6⟩
        · right
          simpa using h7

theorem clean_filename_class_ks (repl : Option Char) (name : List Char) (c : Char)
    (h : c ∈ clean_filename name false repl) :
    (∃ r, repl = some r ∧ c = r) ∨ allowedKS c = true := by
  cases repl with
  | none =>
    have h3 : c ∈ subRuns (fun x => !(allowedKS x)) [] (stripArchiveExt name) :=
      mem_pyStrip stripSet c _ h
    rcases mem_subRunsAux _ [] false _ c h3 with h4 | ⟨_, h5⟩
    · simp at h4
    · right
      simpa using h5
  | some r =>
    have h3 : c ∈ subRuns (fun x => x == r) [r]
        (subRuns (fun x => !(allowedKS x)) [] (stripArchiveExt name)) :=
      mem_pyStrip stripSet c _ h
    rcases mem_subRunsAux _ [r] false _ c h3 with h4 | ⟨h4, _⟩
    · exact Or.inl ⟨r, rfl, by simpa using h4⟩
    · rcases mem_subRunsAux _ [] false _ c h4 with h5 | ⟨_, h6⟩
      · simp at h5
      · right
        simpa using h6

theorem subRunsAux_collapse_head (x : Char) :
    ∀ (l : List Char) (c : Char) (cs : List Char),
      subRunsAux (fun y => y == x) [x] true l = c :: cs → (c == x) = false := by
  intro l
  induction l with
  | nil => intro c cs h; simp [subRunsAux] at h
  | cons d ds ih =>
    intro c cs h
    cases hd : d == x with
    | true =>
      simp only [subRunsAux, hd, if_true] at h
      exact ih c cs h
    | false =>
      simp only [subRunsAux, hd, Bool.false_eq_true, if_false, List.cons.injEq] at h
      rw [← h.1]
      exact hd

theorem hasDouble_subRuns_collapse (x : Char) :
    ∀ (b : Bool) (l : List Char),
      hasDouble x (subRunsAux (fun y => y == x) [x] b l) = false := by
  intro b l
  induction l generalizing b with
  | nil => cases b <;> rfl
  | cons d ds ih =>
    cases hd : d == x with
    | true =>
      cases b with
      | true =>
        simp only [subRunsAux, hd, if_true]
        exact ih true
      | false =>
        simp only [subRunsAux, hd, if_true, List.singleton_append]
        cases haux : subRunsAux (fun y => y == x) [x] true ds with
        | nil => rfl
        | cons c cs =>
          have hc : (c == x) = false := subRunsAux_collapse_head x ds c cs haux
          have hrest : hasDouble x (c :: cs) = false := by
            have h2 := ih true
            rw [haux] at h2
            exact h2
          simp [hasDouble, hc, hrest]
    | false =>
      simp only [subRunsAux, hd, Bool.false_eq_true, if_false]
      cases haux : subRunsAux (fun y => y == x) [x] false ds with
      | nil => rfl
      | cons c cs =>
        have hrest : hasDouble x (c :: cs) = false := by
          have h2 := ih false
          rw [haux] at h2
          exact h2
        simp [hasDouble, hd, hrest]

theorem hasDouble_tail (x d : Char) (l : List Char)
    (h : hasDouble x (d :: l) = false) : hasDouble x l = false := by
  cases l with
  | nil => rfl
  | cons e es =>
    simp only [hasDouble, Bool.or_eq_false_iff] at h
    exact h.2

theorem hasDouble_dropWhile (x : Char) (q : Char → Bool) :
    ∀ l : List Char, hasDouble x l = false → hasDouble x (l.dropWhile q) = false := by
  intro l
  induction l with
  | nil => intro h; exact h
  | cons d ds ih =>
    intro h
    rw [List.dropWhile_cons]
    cases hq : q d with
    | true =>
      simp only [hq, if_true]
      exact ih (hasDouble_tail x d ds h)
    | false =>
      simp only [hq, Bool.false_eq_true, if_false]
      exact h

theorem hasDouble_false_of_head (x : Char) :
    ∀ (p : List Char) (l t : List Char), p ++ t = l → hasDouble x l = false →
      hasDouble x p = false := by
  intro p
  induction p with
  | nil => intro l t hpt hl; rfl
  | cons a q ih =>
    intro l t hpt hl
    subst hpt
    cases q with
    | nil => rfl
    | cons b q2 =>
      simp only [List.cons_append] at hl
      simp only [hasDouble, Bool.or_eq_false_iff] at hl ⊢
      refine ⟨hl.1, ?_⟩
      exact ih (b :: (q2 ++ t)) t rfl hl.2

theorem hasDouble_pyStrip (x : Char) (cut : List Char) (l : List Char)
    (h : hasDouble x l = false) : hasDouble x (pyStrip cut l) = false := by
  have h1 : hasDouble x (l.dropWhile (fun c => cut.contains c)) = false :=
    hasDouble_dropWhile x _ l h
  obtain ⟨t, ht⟩ := rstripChars_pref cut (l.dropWhile (fun c => cut.contains c))
  exact hasDouble_false_of_head x (rstripChars cut _) _ t ht h1

/-- Collapsing runs of the replacement character, followed by the final
strip, leaves no two adjacent copies of it; stated for any input to the
collapse step. -/
theorem hasDouble_clean_filename (name : List Char) (flag : Bool) (r : Char) :
    hasDouble r (clean_filename name flag (some r)) = false := by
  show hasDouble r (pyStrip stripSet (subRuns (fun c => c == r) [r] _)) = false
  exact hasDouble_pyStrip r stripSet _ (hasDouble_subRuns_collapse r false _)

theorem allowedKS_not_control (c : Char) (h : allowedKS c = true) :
    isControlChar c = false := by
  simp only [allowedKS, pyWordChar, bracketChar, Bool.or_eq_true, beq_iff_eq,
    decide_eq_true_eq] at h
  simp only [isControlChar, Bool.or_eq_false_iff, decide_eq_false_iff_not]
  casesm* _ ∨ _
  all_goals
    first
      | omega
      | (subst_vars; exact ⟨by decide, by decide⟩)

theorem contains_false_of_not_mem {c : Char} {l : List Char} (h : c ∉ l) :
    l.contains c = false := by
  simpa using h

theorem not_ext_suffix_of_no_dot {out : List Char} (hdot : '.' ∉ out) :
    SUPPORTED_EXTENSIONS.any (fun e => e.isSuffixOf out) = false := by
  have key : ∀ e : List Char, '.' ∈ e → e.isSuffixOf out = false := by
    intro e he
    cases hsuf : e.isSuffixOf out with
    | false => rfl
    | true =>
      exfalso
      have hs := List.isSuffixOf_iff_suffix.mp hsuf
      exact hdot (hs.sublist.subset he)
  simp only [SUPPORTED_EXTENSIONS, List.any_cons, List.any_nil,
    key ".rar".toList (by decide), key ".zip".toList (by decide),
    key ".7z".toList (by decide), Bool.or_self, Bool.or_false]

/-- C5 amended: for every input filename and each of the four policies,
the sanitizer's output contains no path separator (`/` or `\`), no dot
and hence no supported archive-extension suffix, and no run of the
configured space-replacement character longer than 1 when that
character is non-empty; under the keep-spaces policy the output also
contains no control character — but under the space-replacing policies
a whitespace control character of the input (tab, newline, ...) can
survive, which is the part of the original claim that fails. -/
theorem clean_filename_invariants (name : List Char) (pol : SpacePolicy) :
    (clean_filename name pol.replaceSpacesFlag pol.spaceReplacement).contains '/' = false
    ∧ (clean_filename name pol.replaceSpacesFlag pol.spaceReplacement).contains '\\' = false
    ∧ (clean_filename name pol.replaceSpacesFlag pol.spaceReplacement).contains '.' = false
    ∧ SUPPORTED_EXTENSIONS.any
        (fun e => e.isSuffixOf
          (clean_filename name pol.replaceSpacesFlag pol.spaceReplacement)) = false
    ∧ hasDoubleOpt pol.spaceReplacement
        (clean_filename name pol.replaceSpacesFlag pol.spaceReplacement) = false
    ∧ noControlIfKeep pol
        (clean_filename name pol.replaceSpacesFlag pol.spaceReplacement) = true := by
  cases pol with
  | underscore =>
    have notmem : ∀ c : Char, c ≠ '_' → allowedRS c = false →
        c ∉ clean_filename name true (some '_') := by
      intro c hne hall hmem
      rcases clean_filename_class_rs (some '_') name c hmem with ⟨r, hr, hcr⟩ | hA
      · exact hne (hcr.trans (Option.some.inj hr).symm)
      · simp [hA] at hall
    exact ⟨contains_false_of_not_mem (notmem '/' (by decide) (by decide)),
      contains_false_of_not_mem (notmem '\\' (by decide) (by decide)),
      contains_false_of_not_mem (notmem '.' (by decide) (by decide)),
      not_ext_suffix_of_no_dot (notmem '.' (by decide) (by decide)),
      hasDouble_clean_filename name true '_', rfl⟩
  | dash =>
    have notmem : ∀ c : Char, c ≠ '-' → allowedRS c = false →
        c ∉ clean_filename name true (some '-') := by
      intro c hne hall hmem
      rcases clean_filename_class_rs (some '-') name c hmem with ⟨r, hr, hcr⟩ | hA
      · exact hne (hcr.trans (Option.some.inj hr).symm)
      · simp [hA] at hall
    exact ⟨contains_false_of_not_mem (notmem '/' (by decide) (by decide)),
      contains_false_of_not_mem (notmem '\\' (by decide) (by decide)),
      contains_false_of_not_mem (notmem '.' (by decide) (by decide)),
      not_ext_suffix_of_no_dot (notmem '.' (by decide) (by decide)),
      hasDouble_clean_filename name true '-', rfl⟩
  | removeSpaces =>
    have notmem : ∀ c : Char, allowedRS c = false →
        c ∉ clean_filename name true none := by
      intro c hall hmem
      rcases clean_filename_class_rs none name c hmem with ⟨r, hr, _⟩ | hA
      · exact Option.noConfusion hr
      · simp [hA] at hall
    exact ⟨contains_false_of_not_mem (notmem '/' (by decide)),
      contains_false_of_not_mem (notmem '\\' (by decide)),
      contains_false_of_not_mem (notmem '.' (by decide)),
      not_ext_suffix_of_no_dot (notmem '.' (by decide)),
      rfl, rfl⟩
  | keepSpaces =>
    have notmem : ∀ c : Char, c ≠ ' ' → allowedKS c = false →
        c ∉ clean_filename name false (some ' ') := by
      intro c hne hall hmem
      rcases clean_filename_class_ks (some ' ') name c hmem with ⟨r, hr, hcr⟩ | hA
      · exact hne (hcr.trans (Option.some.inj hr).symm)
      · simp [hA] at hall
    refine ⟨contains_false_of_not_mem (notmem '/' (by decide) (by decide)),
      contains_false_of_not_mem (notmem '\\' (by decide) (by decide)),
      contains_false_of_not_mem (notmem '.' (by decide) (by decide)),
      not_ext_suffix_of_no_dot (notmem '.' (by decide) (by decide)),
      hasDouble_clean_filename name false ' ', ?_⟩
    show (clean_filename name false (some ' ')).all (fun c => !(isControlChar c)) = true
    rw [List.all_eq_true]
    intro c hc
    rcases clean_filename_class_ks (some ' ') name c hc with ⟨r, hr, hcr⟩ | hA
    · have hsp : c = ' ' := hcr.trans (Option.some.inj hr).symm
      subst hsp
      decide
    · simp [allowedKS_not_control c hA]

/-- C5 counterexample: under the underscore policy the tab character of
`"a\tb.zip"` survives sanitization (the regex keeps `\s`, and
`replace(" ", _)` only touches the plain space), so the output contains
a control character. -/
theorem control_char_survives_counterexample :
    '\t' ∈ clean_filename "a\tb.zip".toList
        SpacePolicy.underscore.replaceSpacesFlag SpacePolicy.underscore.spaceReplacement
    ∧ isControlChar '\t' = true := by
  decide

theorem subRunsAux_nil_filter (p : Char → Bool) :
    ∀ (b : Bool) (l : List Char), subRunsAux p [] b l = l.filter (fun c => !(p c)) := by
  intro b l
  induction l generalizing b with
  | nil => cases b <;> rfl
  | cons d ds ih =>
    cases hd : p d with
    | true => cases b <;> simp [subRunsAux, hd, List.filter_cons, ih true]
    | false => cases b <;> simp [subRunsAux, hd, List.filter_cons, ih false]

/-- C7 amended: under the keep-spaces policy the output is obtained
from the extension-stripped input by deleting the disallowed characters
in place — which preserves the positions of the remaining characters,
spaces included — and then collapsing every run of two or more spaces
to a single space (`space_replacement` is `" "`, which is truthy, so
the collapse step runs) and trimming `".-_ "` from the ends.  Space
runs are therefore not preserved verbatim. -/
theorem keep_spaces_amended (name : List Char) :
    clean_filename name SpacePolicy.keepSpaces.replaceSpacesFlag
        SpacePolicy.keepSpaces.spaceReplacement
      = pyStrip stripSet
          (subRuns (fun c => c == ' ') [' ']
            ((stripArchiveExt name).filter (fun c => allowedKS c))) := by
  have hXY : subRuns (fun c => !(allowedKS c)) [] (stripArchiveExt name)
      = (stripArchiveExt name).filter (fun c => allowedKS c) := by
    show subRunsAux (fun c => !(allowedKS c)) [] false (stripArchiveExt name) = _
    rw [subRunsAux_nil_filter]
    simp only [Bool.not_not]
  show pyStrip stripSet
      (subRuns (fun c => c == ' ') [' ']
        (subRuns (fun c => !(allowedKS c)) [] (stripArchiveExt name))) = _
  rw [hXY]

/-- C7 counterexample: for `"a  b.zip"` the disallowed-character
removal alone would keep both spaces (`"a  b"`), but the sanitizer's
actual keep-spaces output is `"a b"`: the run of two spaces is
collapsed, so original space positions are not preserved. -/
theorem keep_spaces_counterexample :
    clean_filename "a  b.zip".toList SpacePolicy.keepSpaces.replaceSpacesFlag
        SpacePolicy.keepSpaces.spaceReplacement = "a b".toList
    ∧ (stripArchiveExt "a  b.zip".toList).filter (fun c => allowedKS c) = "a  b".toList
    ∧ "a b".toList ≠ "a  b".toList := by
  decide
